import Mathlib

/-!
Verification of the octothorpe event-timeline engine.

The Rust sources embedded here are `src/loopable.rs`, `src/instrument.rs` and
`src/cycle.rs`.  The crate modules `events.rs`, `port.rs` and `message.rs` are
declared in `main.rs` but are not part of the source tree, so the definitions
that come from them are modelled from the specification and carry a doc
comment starting with `Modelled from the spec:`.

Machine integers (`u32`, `u8`) are modelled as `Nat`; the arithmetic involved
never exceeds `u32` bounds on the inputs considered.  A Rust panic
(`unwrap` on `None`, `u32` subtraction underflow, integer division by zero,
out-of-bounds indexing) is modelled by an `Option` result being `none`.
`f64` arithmetic in `cycle.rs` is modelled by exact rational arithmetic
(truncation toward zero becomes `Nat` floor division).
-/

/-- Modelled from the spec: `events.rs` is missing from the source tree.  A
pattern-reference event stored on a `Phrase`: a start tick, an optional stop
tick (`none` = still open), and the id of the referenced pattern (its row). -/
structure LoopablePatternEvent where
  start : Nat
  stop : Option Nat
  pattern : Nat
deriving DecidableEq, Repr

/-- Modelled from the spec: `events.rs` is missing from the source tree.  A
note event stored on a `Pattern`: start tick, optional stop tick, key (its
row), and the press/release velocities (release velocity only known once the
note is closed). -/
structure LoopableNoteEvent where
  start : Nat
  stop : Option Nat
  note : Nat
  start_velocity : Nat
  stop_velocity : Option Nat
deriving DecidableEq, Repr

/-- Modelled from the spec: a fully resolved note occurrence with absolute
start/stop ticks (spec section 3). -/
structure PlayingNoteEvent where
  start : Nat
  stop : Nat
  note : Nat
  start_velocity : Nat
  stop_velocity : Nat
deriving DecidableEq, Repr

/-- Modelled from the spec: `message.rs` is missing from the source tree.  A
3-byte MIDI message scheduled at a frame offset within the audio buffer
(spec section 6). -/
structure TimedMessage where
  frame : Nat
  status : Nat
  data1 : Nat
  data2 : Nat
deriving DecidableEq, Repr

/-- Modelled from the spec: the `LoopableEvent` trait of the missing
`events.rs`, as used by `loopable.rs` and `instrument.rs`: accessors for the
start tick, the optional stop tick and the row, and copy-with-update
operations used when events are truncated or split. -/
class LoopableEvent (α : Type) where
  start : α → Nat
  stop : α → Option Nat
  set_start : α → Nat → α
  set_stop : α → Nat → α
  row : α → Nat

instance : LoopableEvent LoopablePatternEvent where
  start e := e.start
  stop e := e.stop
  set_start e t := { e with start := t }
  set_stop e t := { e with stop := some t }
  row e := e.pattern

instance : LoopableEvent LoopableNoteEvent where
  start e := e.start
  stop e := e.stop
  set_start e t := { e with start := t }
  set_stop e t := { e with stop := some t }
  row e := e.note

/-- Laws relating the copy-with-update operations to the accessors; both
concrete event types satisfy them definitionally. -/
class LawfulLoopableEvent (α : Type) [LoopableEvent α] : Prop where
  row_set_start : ∀ (e : α) (t : Nat), LoopableEvent.row (LoopableEvent.set_start e t) = LoopableEvent.row e
  row_set_stop : ∀ (e : α) (t : Nat), LoopableEvent.row (LoopableEvent.set_stop e t) = LoopableEvent.row e
  start_set_start : ∀ (e : α) (t : Nat), LoopableEvent.start (LoopableEvent.set_start e t) = t
  start_set_stop : ∀ (e : α) (t : Nat), LoopableEvent.start (LoopableEvent.set_stop e t) = LoopableEvent.start e
  stop_set_start : ∀ (e : α) (t : Nat), LoopableEvent.stop (LoopableEvent.set_start e t) = LoopableEvent.stop e
  stop_set_stop : ∀ (e : α) (t : Nat), LoopableEvent.stop (LoopableEvent.set_stop e t) = some t

instance : LawfulLoopableEvent LoopablePatternEvent where
  row_set_start _ _ := rfl
  row_set_stop _ _ := rfl
  start_set_start _ _ := rfl
  start_set_stop _ _ := rfl
  stop_set_start _ _ := rfl
  stop_set_stop _ _ := rfl

instance : LawfulLoopableEvent LoopableNoteEvent where
  row_set_start _ _ := rfl
  row_set_stop _ _ := rfl
  start_set_start _ _ := rfl
  start_set_stop _ _ := rfl
  stop_set_start _ _ := rfl
  stop_set_stop _ _ := rfl

section LoopableTrait

variable {α : Type} [LoopableEvent α]

open LoopableEvent

/-- `LoopableEvent::is_on_row` (trait of the missing `events.rs`). -/
def is_on_row (e : α) (r : Nat) : Bool :=
  row e == r

/-- `LoopableEvent::is_on_same_row` (trait of the missing `events.rs`). -/
def is_on_same_row (a b : α) : Bool :=
  row a == row b

/-- Modelled from the spec: a looping event's extent continues past the
container boundary and resumes at tick 0 (spec sections 3 and 4.3); this is
encoded by a stop tick at or before the start tick. -/
def is_looping (e : α) : Bool :=
  match stop e with
  | some s => decide (s ≤ start e)
  | none => false

/-- Modelled from the spec: the extent in ticks of an event inside a container
of length `len`; a looping event covers the trailing segment `[start, len)`
plus the leading segment `[0, stop)` (spec section 4.3).  `none` models the
`unwrap` panic on an open event. -/
def event_length (e : α) (len : Nat) : Option Nat :=
  match stop e with
  | some s => some (if s ≤ start e then len - start e + s else s - start e)
  | none => none

/-- Modelled from the spec: full containment of `other`'s extent in `self`'s
extent, accounting for loop wraparound (spec section 4.2 step 1).  Open
events are never contained. -/
def contains (self other : α) (len : Nat) : Bool :=
  match stop self, stop other with
  | some ss, some os =>
    if is_looping self && ! is_looping other then
      -- other's plain range must sit inside the trailing or leading segment
      decide (start self ≤ start other) || decide (os ≤ ss)
    else if ! is_looping self && is_looping other then
      false
    else
      decide (start self ≤ start other) && decide (os ≤ ss)
  | _, _ => false

/-- Modelled from the spec: truncation of an existing event `o` around a newly
inserted event `e` (spec section 4.2 step 2).  The first component is the
(possibly truncated) surviving event, the second is the trailing piece when
`e` splits `o` in two.  The spec details truncation for plain (non-looping)
ranges; an open or looping survivor is left unchanged. -/
def resize_to_fit (o e : α) (len : Nat) : α × Option α :=
  match stop o, stop e with
  | some os, some es =>
    if is_looping o ∨ is_looping e then (o, none)
    else if start o < start e ∧ start e < os ∧ es < os then
      -- e splits o: keep the leading piece, emit the trailing piece
      (set_stop o (start e), some (set_start o es))
    else if start o < start e ∧ start e < os then
      -- overlap on o's right side
      (set_stop o (start e), none)
    else if start e ≤ start o ∧ start o < es ∧ es < os then
      -- overlap on o's left side
      (set_start o es, none)
    else (o, none)
  | _, _ => (o, none)

/-- `Loopable::try_add_starting_event` (`loopable.rs` lines 16-24): look at the
most recent event on the new event's row; if it is open, do nothing, otherwise
push the new event. -/
def try_add_starting_event (l : List α) (e : α) : List α :=
  match (l.filter (fun o => is_on_same_row o e)).getLast? with
  | some prev => if (stop prev).isNone then l else l ++ [e]
  | none => l ++ [e]

/-- `Vec::swap_remove`: remove the element at index `i` by moving the last
element into its place (`loopable.rs` line 32). -/
def swap_remove (l : List α) (i : Nat) : List α :=
  match l.getLast? with
  | none => []
  | some z => (l.set i z).dropLast

/-- `Loopable::get_last_event_on_row` (`loopable.rs` lines 26-33): index of the
last event on the row via `enumerate().filter(..).last().unwrap()`, then
`swap_remove` it.  `none` models the `unwrap` panic when the row is empty.
Returns the removed event and the remaining events. -/
def get_last_event_on_row (l : List α) (r : Nat) : Option (α × List α) :=
  match (l.enum.filter (fun p => is_on_row p.2 r)).getLast? with
  | none => none
  | some (i, e) => some (e, swap_remove l i)

/-- `Loopable::add_complete_event` (`loopable.rs` lines 35-51): drop same-row
events contained in the new event, truncate the remaining same-row events
around it collecting split-off pieces, append the pieces, push the new
event. -/
def add_complete_event (l : List α) (e : α) (len : Nat) : List α :=
  let kept := l.filter (fun o => ! is_on_same_row e o || ! contains e o len)
  let step := fun o => if is_on_same_row o e then resize_to_fit o e len else (o, none)
  (kept.map (fun o => (step o).1)) ++ (kept.filterMap (fun o => (step o).2)) ++ [e]

/-- `Loopable::contains_events_starting_in` (`loopable.rs` lines 53-57). -/
def contains_events_starting_in (l : List α) (rstart rstop : Nat) (r : Nat) : Bool :=
  (l.find? (fun e => is_on_row e r && decide (rstart ≤ start e) && decide (start e < rstop))).isSome

/-- `Loopable::remove_events_starting_in` (`loopable.rs` lines 59-66): collect
the indexes of matching events, then remove them one by one with
`Vec::remove`.  The indexes refer to the original vector, so every removal
shifts the later ones.  `Vec::remove` panics on an out-of-bounds index;
`List.eraseIdx` is a no-op there instead, which agrees with the source on all
in-bounds removal sequences (the ones the claims evaluate). -/
def remove_events_starting_in (l : List α) (rstart rstop : Nat) (r : Nat) : List α :=
  let idxs := (l.enum.filter (fun p =>
    is_on_row p.2 r && decide (rstart ≤ start p.2) && decide (start p.2 < rstop))).map (fun p => p.1)
  idxs.foldl (fun acc i => acc.eraseIdx i) l

end LoopableTrait

/-- `Phrase` (`loopable.rs` lines 69-74): fixed length plus pattern events. -/
structure Phrase where
  length : Nat
  pattern_events : List LoopablePatternEvent
deriving DecidableEq, Repr

/-- `TimebaseHandler::TICKS_PER_BEAT` (`main.rs`). -/
def TICKS_PER_BEAT : Nat := 1920

/-- `Phrase::default_length` (`loopable.rs` line 89): 4 bars. -/
def Phrase.default_length : Nat := TICKS_PER_BEAT * 4 * 4

/-- `Phrase::new` (`loopable.rs` lines 84-86). -/
def Phrase.new : Phrase :=
  { length := Phrase.default_length, pattern_events := [] }

/-- `Phrase::set_length` (`loopable.rs` lines 90-101): store the new length and
cut short every closed pattern event whose stop exceeds it. -/
def Phrase.set_length (p : Phrase) (len : Nat) : Phrase :=
  { length := len,
    pattern_events := p.pattern_events.map (fun e =>
      match e.stop with
      | some s => if s > len then { e with stop := some len } else e
      | none => e) }

/-- `Pattern` (`loopable.rs` lines 148-151). -/
structure Pattern where
  note_events : List LoopableNoteEvent
deriving DecidableEq, Repr

/-- `Pattern::minimum_length` (`loopable.rs` line 180): 4 beats times
`TICKS_PER_BEAT`. -/
def Pattern.minimum_length : Nat := TICKS_PER_BEAT * 4

/-- `Pattern::new` (`loopable.rs` lines 182-184). -/
def Pattern.new : Pattern := { note_events := [] }

/-- The `max_tick` computation of `Pattern::length` (`loopable.rs` lines
159-163): the maximum start, combined with the maximum closed stop when one
exists. -/
def Pattern.max_tick (p : Pattern) : Option Nat :=
  match (p.note_events.map (fun e => e.start)).max? with
  | none => none
  | some max_start =>
    match (p.note_events.filterMap (fun e => e.stop)).max? with
    | some max_stop => some (if max_stop > max_start then max_stop else max_start)
    | none => some max_start

/-- The doubling loop of `Pattern::length` (`loopable.rs` lines 167-171):
`while length / 2 < tick { length = length * 2 }`.  The `0 < len` conjunct
makes the recursion well-founded; every call site starts from the positive
`Pattern.minimum_length`, where it is always true. -/
def Pattern.grow (tick : Nat) (len : Nat) : Nat :=
  if h : 0 < len ∧ len / 2 < tick then Pattern.grow tick (2 * len) else len
termination_by 2 * tick - len
decreasing_by
  have hlen : len < 2 * tick := by omega
  exact Nat.sub_lt_sub_left hlen (by omega)

/-- `Pattern::length` (`loopable.rs` lines 157-174). -/
def Pattern.length (p : Pattern) : Nat :=
  match p.max_tick with
  | some tick => Pattern.grow tick Pattern.minimum_length
  | none => Pattern.minimum_length

/-- `ProcessCycle::tick_to_frame` (`cycle.rs` lines 51-55).  `none` models the
`u32` subtraction underflow panic when `tick` precedes the cycle's tick range,
and the meaningless `0/0` float division of a zero-length tick range; the
`f64` proportion is otherwise modelled by exact arithmetic, `as u32`
truncation becoming floor division. -/
def tick_to_frame (range_start range_stop n_frames tick : Nat) : Option Nat :=
  if tick < range_start then none
  else if range_stop - range_start = 0 then none
  else some ((tick - range_start) * n_frames / (range_stop - range_start))

/-- `Option`-valued element-wise traversal of a list: `none` as soon as one
element maps to `none` (the panic model composes this way). -/
def mapOpt {β γ : Type} (f : β → Option γ) : List β → Option (List γ)
  | [] => some []
  | x :: xs =>
    match f x, mapOpt f xs with
    | some y, some ys => some (y :: ys)
    | _, _ => none

/-- The per-note body of `Instrument::starting_notes` (`instrument.rs` lines
91-115): test whether the (offset) note start falls in the cycle's
phrase-local window; on success resolve the absolute start/stop.  The outer
`Option` is the panic model (`unwrap` of a missing stop velocity or pattern
stop, `u32` subtraction underflow); the inner `Option` is the `filter_map`
result. -/
def note_playing (len phrase_start_tick phrase_stop_tick iteration sequence_start : Nat)
    (seg_start : Nat) (note_offset : Nat) (pe : LoopablePatternEvent)
    (ne : LoopableNoteEvent) : Option (Option PlayingNoteEvent) :=
  let note_start_tick := phrase_start_tick + note_offset
  let note_stop_tick := phrase_stop_tick + note_offset
  if note_start_tick ≤ ne.start + seg_start ∧ ne.start + seg_start < note_stop_tick then
    match ne.stop, ne.stop_velocity with
    | some stop0, some sv =>
      let base_tick := sequence_start + iteration * len
      match (if is_looping ne then (event_length pe len).map (fun pl => stop0 + pl) else some stop0) with
      | none => none
      | some stop1 =>
        if base_tick + ne.start + seg_start < note_offset then none
        else if base_tick + stop1 + seg_start < note_offset then none
        else some (some
          { start := base_tick + ne.start + seg_start - note_offset,
            stop := base_tick + stop1 + seg_start - note_offset,
            note := ne.note,
            start_velocity := ne.start_velocity,
            stop_velocity := sv })
    | _, _ => none
  else
    some none

/-- `Instrument::starting_notes` (`instrument.rs` lines 59-118).  The absolute
window `[rstart, rstop)` is mapped to phrase-local ticks; each pattern event
contributes its active segment(s) — two for a looping event — which are
filtered against `phrase_stop_tick` exactly as the source does on line 84;
the referenced pattern's closed notes are then tested and resolved.  `none`
models a panic: `u32` underflow of `range - sequence_start`, division by a
zero phrase length, `unwrap` of an open pattern event's stop, or pattern
index out of bounds. -/
def starting_notes (patterns : List Pattern) (phrase : Phrase)
    (rstart rstop sequence_start : Nat) : Option (List PlayingNoteEvent) :=
  if phrase.length = 0 then none
  else if rstart < sequence_start then none
  else if rstop < sequence_start then none
  else
    let len := phrase.length
    let phrase_start_tick := (rstart - sequence_start) % len
    let iteration := (rstart - sequence_start) / len
    let pst := (rstop - sequence_start) % len
    let phrase_stop_tick := if pst = 0 then len else pst
    match mapOpt (fun (pe : LoopablePatternEvent) =>
        if is_looping pe then
          pe.stop.map (fun s => [((0, s), len - s, pe), ((pe.start, len), 0, pe)])
        else
          pe.stop.map (fun s => [((pe.start, s), 0, pe)])) phrase.pattern_events with
    | none => none
    | some segss =>
      let segments := segss.flatten.filter (fun t =>
        decide (t.1.1 < phrase_stop_tick) && decide (t.1.2 > phrase_stop_tick))
      match mapOpt (fun (t : (Nat × Nat) × Nat × LoopablePatternEvent) =>
          match patterns[t.2.2.pattern]? with
          | none => none
          | some pat =>
            (mapOpt (note_playing len phrase_start_tick phrase_stop_tick iteration
                sequence_start t.1.1 t.2.1 t.2.2)
              (pat.note_events.filter (fun ne => ne.stop.isSome))).map List.reduceOption)
          segments with
      | none => none
      | some note_lists => some note_lists.flatten

/-- Modelled from the spec: `port.rs` (`MidiOut::output_messages`) is missing
from the source tree; the spec (sections 4.5 and 6) says messages are written
in frame order, messages pushed earlier staying first among equal frame
offsets.  Stable insertion of one message into a frame-sorted list. -/
def insert_by_frame (m : TimedMessage) : List TimedMessage → List TimedMessage
  | [] => [m]
  | x :: xs => if m.frame ≤ x.frame then m :: x :: xs else x :: insert_by_frame m xs

/-- Modelled from the spec: stable sort of the cycle's messages by frame
offset (see `insert_by_frame`). -/
def sort_by_frame : List TimedMessage → List TimedMessage
  | [] => []
  | x :: xs => insert_by_frame x (sort_by_frame xs)

/-- `Instrument::output_midi` (`instrument.rs` lines 120-150): retire the
sounding notes whose stop tick falls in the cycle's tick range into note-off
messages, turn the newly starting notes into note-on messages, emit
everything through the port (`sort_by_frame`), and keep the still-sounding
plus newly started notes.  `none` models a `tick_to_frame` panic. -/
def output_midi (range_start range_stop n_frames : Nat)
    (playing starting : List PlayingNoteEvent) :
    Option (List TimedMessage × List PlayingNoteEvent) :=
  match mapOpt (fun n => (tick_to_frame range_start range_stop n_frames n.stop).map
      (fun fr => TimedMessage.mk fr 0x80 n.note n.stop_velocity))
      (playing.filter (fun n => decide (range_start ≤ n.stop) && decide (n.stop < range_stop))) with
  | none => none
  | some note_offs =>
    match mapOpt (fun n => (tick_to_frame range_start range_stop n_frames n.start).map
        (fun fr => TimedMessage.mk fr 0x90 n.note n.start_velocity)) starting with
    | none => none
    | some note_ons =>
      some (sort_by_frame (note_offs ++ note_ons),
        (playing.filter (fun n =>
          ! (decide (range_start ≤ n.stop) && decide (n.stop < range_stop)))) ++ starting)

section InvariantProps

variable {α : Type} [LoopableEvent α]

open LoopableEvent

/-- A stored event is well formed when, once closed, its range is a proper
non-looping range `start < stop`; open events are unconstrained. -/
def wellFormed (e : α) : Prop :=
  match stop e with
  | some s => start e < s
  | none => True

instance (e : α) : Decidable (wellFormed e) :=
  match h : stop e with
  | some s => decidable_of_iff (start e < s) (by simp [wellFormed, h])
  | none => Decidable.isTrue (by simp [wellFormed, h])

/-- The claims' precondition on events handed to `insert_complete`: a closed
event with `start < stop`. -/
def start_lt_stop (e : α) : Prop :=
  match stop e with
  | some s => start e < s
  | none => False

instance (e : α) : Decidable (start_lt_stop e) :=
  match h : stop e with
  | some s => decidable_of_iff (start e < s) (by simp [start_lt_stop, h])
  | none => Decidable.isFalse (by simp [start_lt_stop, h])

/-- Two events' tick ranges do not intersect: whenever both are closed, one
range ends at or before the other begins.  Open events have no range, so the
condition is vacuous for them. -/
def disjoint_events (a b : α) : Prop :=
  ∀ sa sb, stop a = some sa → stop b = some sb → sa ≤ start b ∨ sb ≤ start a

/-- Any two stored events sharing a row have non-intersecting ranges. -/
def row_disjoint (l : List α) : Prop :=
  l.Pairwise (fun a b => row a = row b → disjoint_events a b)

/-- The timeline invariant: every stored event well formed, and no two events
on one row overlap. -/
def timeline_ok (l : List α) : Prop :=
  (∀ e ∈ l, wellFormed e) ∧ row_disjoint l

/-- `p` lives on `o`'s row and, when closed, its range sits inside `o`'s
range. -/
def within (p o : α) : Prop :=
  row p = row o ∧
    ∀ sp, stop p = some sp → ∃ so, stop o = some so ∧ start o ≤ start p ∧ sp ≤ so

end InvariantProps

/-! Concrete inputs used by the claim witnesses and counterexamples. -/

/-- The spec's wraparound scenario (section 8): a phrase of length 1000 with a
looping pattern event active on `[900,1000)` wrapping to `[0,50)`. -/
def wrap_phrase : Phrase :=
  { length := 1000, pattern_events := [{ start := 900, stop := some 50, pattern := 0 }] }

/-- Pattern 0 of the wraparound scenario: a closed note in the trailing
segment (pattern-local tick 920) and one in the leading segment (tick 20). -/
def wrap_pattern : Pattern :=
  { note_events :=
      [{ start := 920, stop := some 930, note := 60, start_velocity := 100, stop_velocity := some 64 },
       { start := 20, stop := some 30, note := 61, start_velocity := 100, stop_velocity := some 64 }] }

/-- A pattern holding one closed note with `stop = 8000` (spec section 8's
auto-length scenario). -/
def long_note_pattern : Pattern :=
  { note_events :=
      [{ start := 0, stop := some 8000, note := 1, start_velocity := 1, stop_velocity := some 1 }] }

/-- A single closed note event on row 0. -/
def closed_row0_event : LoopableNoteEvent :=
  { start := 5, stop := some 10, note := 0, start_velocity := 3, stop_velocity := some 4 }

/-- An open note event on row 0 starting at tick 0. -/
def open_row0_event : LoopableNoteEvent :=
  { start := 0, stop := none, note := 0, start_velocity := 1, stop_velocity := none }

/-- A complete note event `[10,20)` on row 0. -/
def complete_row0_event : LoopableNoteEvent :=
  { start := 10, stop := some 20, note := 0, start_velocity := 1, stop_velocity := some 1 }

/-- A second open note event on row 0 starting at tick 30. -/
def late_open_row0_event : LoopableNoteEvent :=
  { start := 30, stop := none, note := 0, start_velocity := 1, stop_velocity := none }

/-- Row-0 event starting at tick 10 (removal scenario). -/
def erase_ev_a : LoopableNoteEvent :=
  { start := 10, stop := some 11, note := 0, start_velocity := 1, stop_velocity := some 1 }

/-- Row-0 event starting at tick 20 (removal scenario). -/
def erase_ev_b : LoopableNoteEvent :=
  { start := 20, stop := some 21, note := 0, start_velocity := 1, stop_velocity := some 1 }

/-- Row-1 event starting at tick 5 (removal scenario; outside the removed
row). -/
def erase_ev_c : LoopableNoteEvent :=
  { start := 5, stop := some 6, note := 1, start_velocity := 1, stop_velocity := some 1 }

/-- A complete note `[0,100)` on row 0 (spec section 8 split scenario). -/
def split_base_event : LoopableNoteEvent :=
  { start := 0, stop := some 100, note := 0, start_velocity := 2, stop_velocity := some 2 }

/-- A complete note `[40,60)` on row 0 (spec section 8 split scenario). -/
def split_new_event : LoopableNoteEvent :=
  { start := 40, stop := some 60, note := 0, start_velocity := 3, stop_velocity := some 3 }

/-- A sounding note retiring at tick 5 (output scheduling scenario). -/
def sounding_note : PlayingNoteEvent :=
  { start := 0, stop := 5, note := 60, start_velocity := 9, stop_velocity := 8 }

/-- A note starting at tick 5, the same frame its predecessor retires
(output scheduling scenario). -/
def restarting_note : PlayingNoteEvent :=
  { start := 5, stop := 15, note := 60, start_velocity := 7, stop_velocity := 6 }

/-- A phrase whose single pattern event is closed inside the phrase length
(used for the empty-cycle scenario). -/
def quiet_phrase : Phrase :=
  { length := 1000, pattern_events := [{ start := 900, stop := some 950, pattern := 0 }] }

/-! ## Claim C2 -/

/-- C2: code_bug evidence.  On the spec's wraparound scenario — phrase length
1000, looping pattern event `[900,1000)` wrapping to `[0,50)`, notes at
pattern-local ticks 920 and 20, absolute window `[950,1020)` with
`sequence_start = 0` — the code returns no playing notes at all: the segment
filter on `instrument.rs` line 84 compares both segment endpoints against
`phrase_stop_tick` (20), dropping the trailing segment, and the leading
segment's note window `[1900,970)` is empty.  The claim expects notes at
absolute ticks 970 and 1020. -/
theorem c2_wraparound_scenario_returns_no_notes :
    starting_notes [wrap_pattern] wrap_phrase 950 1020 0 = some [] := by
  rfl

/-! ## Claim C7 -/

/-- C7: code_bug evidence.  `remove_events_starting_in` collects the indexes
`[0, 1]` of the two row-0 events starting in `[0,100)` but removes them one by
one from the shrinking vector: removing index 0 shifts the list, so removing
index 1 deletes the row-1 event `erase_ev_c` instead of `erase_ev_b`.  The
matching event `erase_ev_b` stays stored; the non-matching `erase_ev_c` is
gone. -/
theorem c7_remove_shifts_indexes :
    remove_events_starting_in [erase_ev_a, erase_ev_b, erase_ev_c] 0 100 0 = [erase_ev_b] := by
  rfl

/-! ## Claim C10 -/

/-- C10: `tick_to_frame` is defined (returns `some`) exactly when the tick is
at or after the cycle start and the tick range is non-empty; a tick before the
range start underflows the `u32` subtraction (modelled `none`); and inside a
non-empty range with a positive buffer the resulting frame offset is strictly
below the buffer's frame count. -/
theorem c10_tick_to_frame_totality :
    ∀ range_start range_stop n_frames tick : Nat,
      ((tick_to_frame range_start range_stop n_frames tick).isSome ↔
        range_start ≤ tick ∧ range_start < range_stop) ∧
      (tick < range_start → tick_to_frame range_start range_stop n_frames tick = none) ∧
      (∀ fr, range_start ≤ tick → tick < range_stop → 0 < n_frames →
        tick_to_frame range_start range_stop n_frames tick = some fr → fr < n_frames) := by
  intro s e f t
  refine ⟨?_, ?_, ?_⟩
  · unfold tick_to_frame
    split_ifs with h1 h2 <;> simp <;> omega
  · intro h
    unfold tick_to_frame
    split_ifs <;> first | rfl | omega
  · intro fr h1 h2 h3 heq
    unfold tick_to_frame at heq
    split_ifs at heq with g1 g2
    have hfr : fr = (t - s) * f / (e - s) := by
      exact (Option.some_inj.mp heq).symm
    subst hfr
    rw [Nat.div_lt_iff_lt_mul (by omega)]
    have hts : t - s < e - s := by omega
    calc (t - s) * f < (e - s) * f := by
          exact Nat.mul_lt_mul_of_lt_of_le hts (Nat.le_refl f) h3
      _ = f * (e - s) := Nat.mul_comm _ _

/-- C10 witness: concrete cycle `[10,20)` with 512 frames at tick 15. -/
theorem c10_witness :
    tick_to_frame 10 20 512 15 = some 256 ∧ 256 < 512 :=
  ⟨rfl, (c10_tick_to_frame_totality 10 20 512 15).2.2 256 (by decide) (by decide) (by decide) rfl⟩

/-! ## Claim C3 -/

/-- Doubling produces a power-of-two multiple of the initial length. -/
theorem grow_pow (tick len : Nat) : ∃ k, Pattern.grow tick len = len * 2 ^ k := by
  refine Pattern.grow.induct tick (fun l => ∃ k, Pattern.grow tick l = l * 2 ^ k) ?_ ?_ len
  · intro l h ih
    obtain ⟨k, hk⟩ := ih
    refine ⟨k + 1, ?_⟩
    rw [Pattern.grow, dif_pos h, hk]
    ring
  · intro l h
    refine ⟨0, ?_⟩
    rw [Pattern.grow, dif_neg h]
    simp

/-- The loop exits only once `tick ≤ length / 2`, and the length stays
positive. -/
theorem grow_exit (tick len : Nat) :
    0 < len → tick ≤ Pattern.grow tick len / 2 ∧ 0 < Pattern.grow tick len := by
  refine Pattern.grow.induct tick
    (fun l => 0 < l → tick ≤ Pattern.grow tick l / 2 ∧ 0 < Pattern.grow tick l) ?_ ?_ len
  · intro l h ih h0
    rw [Pattern.grow, dif_pos h]
    exact ih (by omega)
  · intro l h h0
    rw [Pattern.grow, dif_neg h]
    omega

/-- Minimality: the result is the initial length, or halving it once more
would drop below `tick`. -/
theorem grow_minimal (tick len : Nat) :
    0 < len → Pattern.grow tick len = len ∨ Pattern.grow tick len / 4 < tick := by
  refine Pattern.grow.induct tick
    (fun l => 0 < l → Pattern.grow tick l = l ∨ Pattern.grow tick l / 4 < tick) ?_ ?_ len
  · intro l h ih h0
    rw [Pattern.grow, dif_pos h]
    rcases ih (by omega) with heq | hlt
    · right
      rw [heq]
      omega
    · right
      exact hlt
  · intro l h h0
    rw [Pattern.grow, dif_neg h]
    exact Or.inl rfl

/-- Concrete run of the doubling loop: starting from the 7680-tick minimum
with a maximum tick of 8000, the loop doubles twice. -/
theorem grow_eval_8000 : Pattern.grow 8000 7680 = 30720 := by
  rw [Pattern.grow, dif_pos (by norm_num)]
  rw [Pattern.grow, dif_pos (by norm_num)]
  rw [Pattern.grow, dif_neg (by norm_num)]

/-- C3 counterexample: a pattern holding one note with `stop = 8000` has
length 30720, not the claimed 15360 — the loop doubles while
`length / 2 < tick`, so 15360 (with 15360/2 = 7680 < 8000) is doubled once
more.  This agrees with the repository's own `length` test, which expects
`minimum_length * 4` for a stop of `minimum_length + 10`. -/
theorem c3_counterexample :
    Pattern.length long_note_pattern = 30720 ∧ Pattern.length long_note_pattern ≠ 15360 := by
  have hmin : Pattern.minimum_length = 7680 := by
    norm_num [Pattern.minimum_length, TICKS_PER_BEAT]
  have h : Pattern.length long_note_pattern = 30720 := by
    have hmax : Pattern.max_tick long_note_pattern = some 8000 := rfl
    unfold Pattern.length
    rw [hmax]
    show Pattern.grow 8000 Pattern.minimum_length = 30720
    rw [hmin]
    exact grow_eval_8000
  exact ⟨h, by rw [h]; norm_num⟩

/-- C3 (amended): `Pattern::length()` is the smallest power-of-two multiple
`L` of the minimum length 7680 with `max_tick ≤ L / 2` — the loop doubles
while `L / 2 < max_tick` — 7680 for an empty pattern; in particular a note
with `stop = 8000` gives 30720 (not 15360). -/
theorem c3_pattern_length_characterization :
    (∀ p : Pattern, p.max_tick = none → p.length = 7680) ∧
    (∀ (p : Pattern) (t : Nat), p.max_tick = some t →
      (∃ k, p.length = 7680 * 2 ^ k) ∧ t ≤ p.length / 2 ∧
        (p.length = 7680 ∨ p.length / 4 < t)) ∧
    Pattern.length long_note_pattern = 30720 := by
  have hmin : Pattern.minimum_length = 7680 := by norm_num [Pattern.minimum_length, TICKS_PER_BEAT]
  refine ⟨?_, ?_, ?_⟩
  · intro p hnone
    unfold Pattern.length
    rw [hnone, hmin]
  · intro p t hsome
    unfold Pattern.length
    rw [hsome, ← hmin]
    exact ⟨grow_pow t _, (grow_exit t _ (by rw [hmin]; norm_num)).1,
      grow_minimal t _ (by rw [hmin]; norm_num)⟩
  · have hmax : Pattern.max_tick long_note_pattern = some 8000 := rfl
    unfold Pattern.length
    rw [hmax]
    show Pattern.grow 8000 Pattern.minimum_length = 30720
    rw [hmin]
    exact grow_eval_8000

/-- C3 witness: the characterization applied to the concrete `stop = 8000`
pattern. -/
theorem c3_witness :
    (∃ k, Pattern.length long_note_pattern = 7680 * 2 ^ k) ∧
      8000 ≤ Pattern.length long_note_pattern / 2 ∧
      (Pattern.length long_note_pattern = 7680 ∨ Pattern.length long_note_pattern / 4 < 8000) :=
  c3_pattern_length_characterization.2.1 long_note_pattern 8000 rfl

/-! ## Claim C9 -/

/-- C9: after `Phrase::set_length(L)` the phrase's length is `L`; events
correspond one-to-one with the old ones — same start, same pattern id, open
stops stay open, and a closed stop becomes `min(stop, L)` (clipped to exactly
`L` when it exceeded `L`) — and every closed stop in the result is at most
`L`. -/
theorem c9_set_length_clips_stops :
    ∀ (p : Phrase) (L : Nat),
      (p.set_length L).length = L ∧
      List.Forall₂ (fun (old new : LoopablePatternEvent) =>
          new.start = old.start ∧ new.pattern = old.pattern ∧
          (old.stop = none → new.stop = none) ∧
          ∀ s, old.stop = some s → new.stop = some (if L < s then L else s))
        p.pattern_events (p.set_length L).pattern_events ∧
      ∀ e ∈ (p.set_length L).pattern_events, ∀ s, e.stop = some s → s ≤ L := by
  intro p L
  refine ⟨rfl, ?_, ?_⟩
  · show List.Forall₂ _ p.pattern_events (p.pattern_events.map _)
    rw [List.forall₂_map_right_iff, List.forall₂_same]
    intro e _
    obtain ⟨es, estop, epat⟩ := e
    cases estop with
    | none =>
      exact ⟨rfl, rfl, fun _ => rfl, fun s hs => Option.noConfusion hs⟩
    | some s =>
      dsimp only
      by_cases hL : s > L
      · rw [if_pos hL]
        refine ⟨rfl, rfl, fun h => Option.noConfusion h, fun s' hs' => ?_⟩
        obtain rfl : s = s' := Option.some_inj.mp hs'
        rw [if_pos (by omega)]
      · rw [if_neg hL]
        refine ⟨rfl, rfl, fun h => Option.noConfusion h, fun s' hs' => ?_⟩
        obtain rfl : s = s' := Option.some_inj.mp hs'
        rw [if_neg (by omega)]
  · intro e he s hs
    simp only [Phrase.set_length, List.mem_map] at he
    obtain ⟨a, _, rfl⟩ := he
    obtain ⟨as, astop, apat⟩ := a
    cases astop with
    | none => exact Option.noConfusion hs
    | some s0 =>
      have hs2 : (if s0 > L then ({ start := as, stop := some L, pattern := apat } : LoopablePatternEvent)
          else { start := as, stop := some s0, pattern := apat }).stop = some s := hs
      by_cases hL : s0 > L
      · rw [if_pos hL] at hs2
        have hsl : L = s := Option.some_inj.mp hs2
        omega
      · rw [if_neg hL] at hs2
        have hsl : s0 = s := Option.some_inj.mp hs2
        omega

/-- C9 witness: a concrete phrase shortened to 40 ticks; its event's stop 50
is clipped to 40. -/
theorem c9_witness :
    (Phrase.set_length wrap_phrase 40).length = 40 ∧
      List.Forall₂ (fun (old new : LoopablePatternEvent) =>
          new.start = old.start ∧ new.pattern = old.pattern ∧
          (old.stop = none → new.stop = none) ∧
          ∀ s, old.stop = some s → new.stop = some (if 40 < s then 40 else s))
        wrap_phrase.pattern_events (Phrase.set_length wrap_phrase 40).pattern_events ∧
      ∀ e ∈ (Phrase.set_length wrap_phrase 40).pattern_events, ∀ s, e.stop = some s → s ≤ 40 :=
  c9_set_length_clips_stops wrap_phrase 40

/-! ## Claim C6 -/

/-- C6 counterexample: starting from the empty timeline and using only the
timeline API — `insert_open` at tick 0 on row 0, `insert_complete` `[10,20)`
on row 0, then `insert_open` at tick 30 on row 0 — the second `insert_open`
is appended even though row 0 still holds the first open event, because the
guard only inspects the most recent same-row event (the complete one).  The
resulting timeline stores two open events on row 0. -/
theorem c6_counterexample :
    try_add_starting_event
        (add_complete_event (try_add_starting_event ([] : List LoopableNoteEvent) open_row0_event)
          complete_row0_event 7680)
        late_open_row0_event
      = [open_row0_event, complete_row0_event, late_open_row0_event] ∧
    open_row0_event.stop = none ∧ late_open_row0_event.stop = none ∧
      open_row0_event.note = 0 ∧ late_open_row0_event.note = 0 := by
  refine ⟨rfl, rfl, rfl, rfl, rfl⟩

/-- C6 (amended): `try_add_starting_event` appends the new event whenever the
row holds no open event at all (in particular it never errors), and is a
no-op exactly when the most recently inserted event on that row — not any
stored event — is open. -/
theorem c6_try_add_guard :
    ∀ {α : Type} [inst : LoopableEvent α] (l : List α) (e : α),
      ((∀ o ∈ l, is_on_same_row o e = true → (LoopableEvent.stop o).isSome) →
        try_add_starting_event l e = l ++ [e]) ∧
      (∀ prev, (l.filter (fun o => is_on_same_row o e)).getLast? = some prev →
        (LoopableEvent.stop prev).isNone → try_add_starting_event l e = l) := by
  intro α inst l e
  constructor
  · intro hclosed
    unfold try_add_starting_event
    cases hlast : (l.filter (fun o => is_on_same_row o e)).getLast? with
    | none => rfl
    | some prev =>
      have hmem := List.mem_of_mem_getLast? hlast
      rw [List.mem_filter] at hmem
      have := hclosed prev hmem.1 hmem.2
      simp only [Option.isNone_iff_eq_none]
      rw [Option.isSome_iff_exists] at this
      obtain ⟨v, hv⟩ := this
      rw [hv]
      simp
  · intro prev hlast hopen
    unfold try_add_starting_event
    rw [hlast]
    simp [hopen]

/-- C6 witness: with only a complete event stored on row 0, a new open event
is appended. -/
theorem c6_witness :
    try_add_starting_event [complete_row0_event] open_row0_event
      = [complete_row0_event, open_row0_event] :=
  (c6_try_add_guard [complete_row0_event] open_row0_event).1 (by decide)

/-! ## Claim C5 -/

/-- `Vec::swap_remove` at an in-bounds index removes exactly that element (up
to reordering of the remainder). -/
theorem swap_remove_perm {α : Type} (l : List α) (i : Nat) (h : i < l.length) :
    (swap_remove l i).Perm (l.eraseIdx i) := by
  induction l generalizing i with
  | nil => simp at h
  | cons x xs ih =>
    cases i with
    | zero =>
      cases xs with
      | nil => simp [swap_remove]
      | cons y ys =>
        have hne : (y :: ys) ≠ ([] : List α) := by simp
        have hgl : (x :: y :: ys).getLast? = some ((y :: ys).getLast hne) := by
          rw [List.getLast?_eq_getLast (x :: y :: ys) (by simp), List.getLast_cons hne]
        unfold swap_remove
        rw [hgl]
        show (((y :: ys).getLast hne :: y :: ys).dropLast).Perm (y :: ys)
        rw [List.dropLast_cons_of_ne_nil hne]
        conv_rhs => rw [← List.dropLast_append_getLast hne]
        exact (List.perm_append_singleton _ _).symm
    | succ j =>
      have hj : j < xs.length := by simpa using h
      have hxs : xs ≠ [] := by
        intro h0
        subst h0
        simp at hj
      have hgl : (x :: xs).getLast? = some (xs.getLast hxs) := by
        rw [List.getLast?_eq_getLast (x :: xs) (by simp), List.getLast_cons hxs]
      have hgl2 : xs.getLast? = some (xs.getLast hxs) := List.getLast?_eq_getLast _ hxs
      unfold swap_remove
      rw [hgl]
      show (((x :: xs).set (j + 1) (xs.getLast hxs)).dropLast).Perm ((x :: xs).eraseIdx (j + 1))
      rw [List.set_cons_succ, List.eraseIdx_cons_succ]
      have hset_ne : xs.set j (xs.getLast hxs) ≠ [] := by
        intro h0
        have hlen := congrArg List.length h0
        rw [List.length_set] at hlen
        simp at hlen
        subst hlen
        simp at hj
      rw [List.dropLast_cons_of_ne_nil hset_ne]
      refine List.Perm.cons x ?_
      have hrec := ih j hj
      unfold swap_remove at hrec
      rw [hgl2] at hrec
      exact hrec


/-- The last element of the filtered enumeration is the last event on the row:
its index is in bounds, the event is stored there and matches the row, and no
later stored event matches the row. -/
theorem enumFrom_filter_last {α : Type} [LoopableEvent α] (r : Nat) :
    ∀ (l : List α) (n i : Nat) (e : α),
      ((List.enumFrom n l).filter (fun p => is_on_row p.2 r)).getLast? = some (i, e) →
      n ≤ i ∧ i - n < l.length ∧ l[i - n]? = some e ∧ is_on_row e r = true ∧
        ∀ k ev, i - n < k → l[k]? = some ev → is_on_row ev r = false := by
  intro l
  induction l with
  | nil =>
    intro n i e h
    simp [List.enumFrom] at h
  | cons x xs ih =>
    intro n i e h
    rw [List.enumFrom_cons] at h
    have lift : ∀ (i0 : Nat) (e0 : α),
        n + 1 ≤ i0 → i0 - (n + 1) < xs.length → xs[i0 - (n + 1)]? = some e0 →
        is_on_row e0 r = true →
        (∀ k ev, i0 - (n + 1) < k → xs[k]? = some ev → is_on_row ev r = false) →
        n ≤ i0 ∧ i0 - n < (x :: xs).length ∧ (x :: xs)[i0 - n]? = some e0 ∧
          is_on_row e0 r = true ∧
          ∀ k ev, i0 - n < k → (x :: xs)[k]? = some ev → is_on_row ev r = false := by
      intro i0 e0 hn hlt hget hrow hlater
      have hidx : i0 - n = (i0 - (n + 1)) + 1 := by omega
      refine ⟨by omega, by simp; omega, ?_, hrow, ?_⟩
      · rw [hidx, List.getElem?_cons_succ]
        exact hget
      · intro k ev hk hkev
        cases k with
        | zero => omega
        | succ j =>
          rw [List.getElem?_cons_succ] at hkev
          exact hlater j ev (by omega) hkev
    by_cases hx : is_on_row x r = true
    · rw [@List.filter_cons_of_pos _ (fun p => is_on_row p.2 r) (n, x) _ hx] at h
      cases htail : ((List.enumFrom (n + 1) xs).filter (fun p => is_on_row p.2 r)).getLast? with
      | some q =>
        obtain ⟨zs, hzs⟩ := List.getLast?_eq_some_iff.mp htail
        rw [hzs, show (n, x) :: (zs ++ [q]) = ((n, x) :: zs) ++ [q] from rfl,
          List.getLast?_concat] at h
        obtain rfl : q = (i, e) := Option.some_inj.mp h
        have hrec := ih (n + 1) i e (by rw [htail])
        exact lift i e hrec.1 hrec.2.1 hrec.2.2.1 hrec.2.2.2.1 hrec.2.2.2.2
      | none =>
        have hnil := List.getLast?_eq_none_iff.mp htail
        rw [hnil] at h
        have hxe : (n, x) = (i, e) := Option.some_inj.mp h
        obtain ⟨rfl, rfl⟩ : n = i ∧ x = e := Prod.mk.injEq .. |>.mp hxe
        refine ⟨Nat.le_refl n, by simp, by simp, hx, ?_⟩
        intro k ev hk hkev
        cases k with
        | zero => omega
        | succ j =>
          rw [List.getElem?_cons_succ] at hkev
          obtain ⟨hj, hev⟩ := List.getElem?_eq_some_iff.mp hkev
          have hlen : j < (List.enumFrom (n + 1) xs).length := by
            simpa using hj
          have hmem : (List.enumFrom (n + 1) xs)[j] ∈ List.enumFrom (n + 1) xs :=
            List.getElem_mem hlen
          rw [List.getElem_enumFrom] at hmem
          have hfil := List.filter_eq_nil_iff.mp hnil _ hmem
          rw [Bool.eq_false_iff]
          intro hc
          apply hfil
          show is_on_row xs[j] r = true
          rw [hev]
          exact hc
    · rw [@List.filter_cons_of_neg _ (fun p => is_on_row p.2 r) (n, x) _ (by simpa using hx)] at h
      have hrec := ih (n + 1) i e h
      exact lift i e hrec.1 hrec.2.1 hrec.2.2.1 hrec.2.2.2.1 hrec.2.2.2.2

/-- C5 counterexample: a row holding a single closed event — no open event at
all — on which `get_last_event_on_row` succeeds: it removes and returns the
closed event, leaving the row empty, instead of failing with a LogicError and
leaving the stored events unchanged as the claim states. -/
theorem c5_counterexample :
    get_last_event_on_row [closed_row0_event] 0 = some (closed_row0_event, []) ∧
      closed_row0_event.stop = some 10 :=
  ⟨rfl, rfl⟩

/-- C5 (amended): `get_last_event_on_row` removes and returns the
most-recently-inserted event on the row whether it is open or closed —
`swap_remove` may reorder the remaining events, so the remainder is a
permutation of the list with that one index erased — and panics
(`unwrap` on `None`, modelled as `none`) when the row stores no event at
all. -/
theorem c5_get_last_event_behavior :
    ∀ {α : Type} [inst : LoopableEvent α] (l : List α) (r : Nat),
      (l.filter (fun o => is_on_row o r) = [] → get_last_event_on_row l r = none) ∧
      (∀ ev rest, get_last_event_on_row l r = some (ev, rest) →
        ∃ i, i < l.length ∧ l[i]? = some ev ∧ is_on_row ev r = true ∧
          (∀ k e2, i < k → l[k]? = some e2 → is_on_row e2 r = false) ∧
          rest.Perm (l.eraseIdx i)) := by
  intro α inst l r
  constructor
  · intro hnil
    unfold get_last_event_on_row
    have hfil : (l.enum.filter (fun p => is_on_row p.2 r)) = [] := by
      rw [List.filter_eq_nil_iff]
      rintro ⟨i0, x0⟩ hp
      obtain ⟨hi0, hx0⟩ := List.mem_enum hp
      have hx0mem : x0 ∈ l := by
        rw [hx0]
        exact List.getElem_mem hi0
      have := List.filter_eq_nil_iff.mp hnil x0 hx0mem
      simpa using this
    rw [hfil]
    rfl
  · intro ev rest hsome
    unfold get_last_event_on_row at hsome
    cases hlast : (l.enum.filter (fun p => is_on_row p.2 r)).getLast? with
    | none =>
      rw [hlast] at hsome
      cases hsome
    | some p =>
      rw [hlast] at hsome
      obtain ⟨i0, e0⟩ := p
      have heq : (e0, swap_remove l i0) = (ev, rest) := Option.some_inj.mp hsome
      obtain ⟨rfl, rfl⟩ : e0 = ev ∧ swap_remove l i0 = rest := Prod.mk.injEq .. |>.mp heq
      rw [List.enum_eq_enumFrom] at hlast
      have hchar := enumFrom_filter_last r l 0 i0 e0 hlast
      rw [Nat.sub_zero] at hchar
      refine ⟨i0, hchar.2.1, hchar.2.2.1, hchar.2.2.2.1, ?_, ?_⟩
      · intro k e2 hk hke
        exact hchar.2.2.2.2 k e2 hk hke
      · exact swap_remove_perm l i0 hchar.2.1

/-- C5 witness: the amended behavior applied to the single-closed-event row. -/
theorem c5_witness :
    ∃ i, i < ([closed_row0_event] : List LoopableNoteEvent).length ∧
      ([closed_row0_event] : List LoopableNoteEvent)[i]? = some closed_row0_event ∧
      is_on_row closed_row0_event 0 = true ∧
      (∀ k e2, i < k → ([closed_row0_event] : List LoopableNoteEvent)[k]? = some e2 →
        is_on_row e2 0 = false) ∧
      ([] : List LoopableNoteEvent).Perm ([closed_row0_event].eraseIdx i) :=
  (c5_get_last_event_behavior [closed_row0_event] 0).2 closed_row0_event [] rfl

/-! ## Claim C8 -/

/-- Every element of a successful `mapOpt` run comes from some input element. -/
theorem mapOpt_mem {β γ : Type} (g : β → Option γ) :
    ∀ (l : List β) (out : List γ), mapOpt g l = some out →
      ∀ y ∈ out, ∃ x ∈ l, g x = some y := by
  intro l
  induction l with
  | nil =>
    intro out h y hy
    cases Option.some_inj.mp h
    cases hy
  | cons x xs ih =>
    intro out h y hy
    unfold mapOpt at h
    cases hgx : g x with
    | none => rw [hgx] at h; cases h
    | some y0 =>
      rw [hgx] at h
      cases hrest : mapOpt g xs with
      | none => rw [hrest] at h; cases h
      | some ys =>
        rw [hrest] at h
        cases Option.some_inj.mp h
        rcases List.mem_cons.mp hy with rfl | hmem
        · exact ⟨x, List.mem_cons_self x xs, hgx⟩
        · obtain ⟨x1, hx1, hgx1⟩ := ih ys hrest y hmem
          exact ⟨x1, List.mem_cons_of_mem x hx1, hgx1⟩

/-- Stable insertion keeps the messages at any fixed frame offset in order:
the inserted message goes in front of them exactly when it carries that
frame. -/
theorem filter_insert_by_frame (f : Nat) (m : TimedMessage) :
    ∀ l : List TimedMessage,
      (insert_by_frame m l).filter (fun x => x.frame == f)
        = if m.frame == f then m :: l.filter (fun x => x.frame == f)
          else l.filter (fun x => x.frame == f) := by
  intro l
  induction l with
  | nil =>
    unfold insert_by_frame
    by_cases hm : m.frame = f
    · rw [if_pos (by simpa using hm)]
      simp [hm]
    · rw [if_neg (by simpa using hm)]
      simp [hm]
  | cons x xs ih =>
    unfold insert_by_frame
    by_cases hle : m.frame ≤ x.frame
    · rw [if_pos hle]
      by_cases hm : m.frame = f
      · rw [List.filter_cons_of_pos (by simpa using hm), if_pos (by simpa using hm)]
      · rw [List.filter_cons_of_neg (by simpa using hm), if_neg (by simpa using hm)]
    · rw [if_neg hle]
      by_cases hx : x.frame = f
      · rw [List.filter_cons_of_pos (by simpa using hx), ih]
        by_cases hm : m.frame = f
        · omega
        · rw [if_neg (by simpa using hm), if_neg (by simpa using hm),
            List.filter_cons_of_pos (by simpa using hx)]
      · rw [List.filter_cons_of_neg (by simpa using hx), ih]
        by_cases hm : m.frame = f
        · rw [if_pos (by simpa using hm), if_pos (by simpa using hm),
            List.filter_cons_of_neg (by simpa using hx)]
        · rw [if_neg (by simpa using hm), if_neg (by simpa using hm),
            List.filter_cons_of_neg (by simpa using hx)]

/-- The spec-modelled stable sort never reorders messages sharing a frame
offset. -/
theorem filter_sort_by_frame (f : Nat) :
    ∀ l : List TimedMessage,
      (sort_by_frame l).filter (fun x => x.frame == f) = l.filter (fun x => x.frame == f) := by
  intro l
  induction l with
  | nil => rfl
  | cons x xs ih =>
    unfold sort_by_frame
    rw [filter_insert_by_frame]
    by_cases hm : x.frame = f
    · rw [if_pos (by simpa using hm), ih, List.filter_cons_of_pos (by simpa using hm)]
    · rw [if_neg (by simpa using hm), ih, List.filter_cons_of_neg (by simpa using hm)]

/-- C8: in the message sequence `output_midi` emits, the messages carrying any
fixed frame offset are exactly the note-offs at that offset followed by the
note-ons at that offset: the retire pass runs first, and the stable
frame-order emission keeps equal-frame note-offs in front of note-ons. -/
theorem c8_offs_before_ons_at_equal_frames :
    ∀ (range_start range_stop n_frames : Nat)
      (playing starting : List PlayingNoteEvent)
      (em : List TimedMessage) (pl : List PlayingNoteEvent),
      output_midi range_start range_stop n_frames playing starting = some (em, pl) →
      ∀ f, em.filter (fun m => m.frame == f)
          = em.filter (fun m => m.frame == f && m.status == 0x80)
            ++ em.filter (fun m => m.frame == f && m.status == 0x90) := by
  intro rs re nf playing starting em pl h f
  unfold output_midi at h
  cases hoffs : mapOpt (fun n => (tick_to_frame rs re nf n.stop).map
      (fun fr => TimedMessage.mk fr 0x80 n.note n.stop_velocity))
      (playing.filter (fun n => decide (rs ≤ n.stop) && decide (n.stop < re))) with
  | none => rw [hoffs] at h; cases h
  | some note_offs =>
    rw [hoffs] at h
    cases hons : mapOpt (fun n => (tick_to_frame rs re nf n.start).map
        (fun fr => TimedMessage.mk fr 0x90 n.note n.start_velocity)) starting with
    | none => rw [hons] at h; cases h
    | some note_ons =>
      rw [hons] at h
      have hem : em = sort_by_frame (note_offs ++ note_ons) :=
        (congrArg Prod.fst (Option.some_inj.mp h)).symm
      have hoff80 : ∀ m ∈ note_offs, m.status = 0x80 := by
        intro m hm
        obtain ⟨x, _, hgx⟩ := mapOpt_mem _ _ _ hoffs m hm
        cases htf : tick_to_frame rs re nf x.stop with
        | none => rw [htf] at hgx; cases hgx
        | some fr =>
          rw [htf] at hgx
          have := Option.some_inj.mp hgx
          rw [← this]
      have hon90 : ∀ m ∈ note_ons, m.status = 0x90 := by
        intro m hm
        obtain ⟨x, _, hgx⟩ := mapOpt_mem _ _ _ hons m hm
        cases htf : tick_to_frame rs re nf x.start with
        | none => rw [htf] at hgx; cases hgx
        | some fr =>
          rw [htf] at hgx
          have := Option.some_inj.mp hgx
          rw [← this]
      have key : ∀ (g : TimedMessage → Bool),
          em.filter (fun m => m.frame == f && g m)
            = note_offs.filter (fun m => m.frame == f && g m)
              ++ note_ons.filter (fun m => m.frame == f && g m) := by
        intro g
        rw [hem]
        rw [show (fun m : TimedMessage => m.frame == f && g m)
            = (fun m : TimedMessage => g m && m.frame == f) from by
          funext m
          exact Bool.and_comm _ _]
        rw [← List.filter_filter]
        rw [filter_sort_by_frame]
        rw [List.filter_filter, List.filter_append]
      have h80 : em.filter (fun m => m.frame == f && m.status == 0x80)
          = note_offs.filter (fun m => m.frame == f) := by
        rw [key (fun m => m.status == 0x80)]
        have e1 : note_offs.filter (fun m => m.frame == f && m.status == 0x80)
            = note_offs.filter (fun m => m.frame == f) :=
          List.filter_congr (fun m hm => by simp [hoff80 m hm])
        have e2 : note_ons.filter (fun m => m.frame == f && m.status == 0x80) = [] :=
          List.filter_eq_nil_iff.mpr (fun m hm => by simp [hon90 m hm])
        rw [e1, e2, List.append_nil]
      have h90 : em.filter (fun m => m.frame == f && m.status == 0x90)
          = note_ons.filter (fun m => m.frame == f) := by
        rw [key (fun m => m.status == 0x90)]
        have e1 : note_offs.filter (fun m => m.frame == f && m.status == 0x90) = [] :=
          List.filter_eq_nil_iff.mpr (fun m hm => by simp [hoff80 m hm])
        have e2 : note_ons.filter (fun m => m.frame == f && m.status == 0x90)
            = note_ons.filter (fun m => m.frame == f) :=
          List.filter_congr (fun m hm => by simp [hon90 m hm])
        rw [e1, e2, List.nil_append]
      rw [h80, h90, hem, filter_sort_by_frame, List.filter_append]

/-- C8 witness: a sounding note retiring at tick 5 and an equal pitch starting
at tick 5 land on the same frame; the emitted pair is off-then-on. -/
theorem c8_witness :
    ([⟨5, 0x80, 60, 8⟩, ⟨5, 0x90, 60, 7⟩] : List TimedMessage).filter (fun m => m.frame == 5)
      = ([⟨5, 0x80, 60, 8⟩, ⟨5, 0x90, 60, 7⟩] : List TimedMessage).filter
          (fun m => m.frame == 5 && m.status == 0x80)
        ++ ([⟨5, 0x80, 60, 8⟩, ⟨5, 0x90, 60, 7⟩] : List TimedMessage).filter
          (fun m => m.frame == 5 && m.status == 0x90) :=
  c8_offs_before_ons_at_equal_frames 0 10 10 [sounding_note] [restarting_note]
    [⟨5, 0x80, 60, 8⟩, ⟨5, 0x90, 60, 7⟩] [restarting_note] rfl 5

/-! ## Claim C4 -/

/-- A `mapOpt` run succeeds when every element maps to `some`, and the output
is related pointwise to the input. -/
theorem mapOpt_some_of_forall {β γ : Type} (g : β → Option γ) :
    ∀ l : List β, (∀ x ∈ l, (g x).isSome) →
      ∃ out, mapOpt g l = some out ∧ List.Forall₂ (fun x y => g x = some y) l out := by
  intro l
  induction l with
  | nil => exact fun _ => ⟨[], rfl, List.Forall₂.nil⟩
  | cons x xs ih =>
    intro h
    obtain ⟨y, hy⟩ := Option.isSome_iff_exists.mp (h x (List.mem_cons_self x xs))
    obtain ⟨out, hout, hf2⟩ := ih (fun z hz => h z (List.mem_cons_of_mem x hz))
    refine ⟨y :: out, ?_, List.Forall₂.cons hy hf2⟩
    unfold mapOpt
    rw [hy, hout]

/-- When every element maps to `some []`, the flattened output is empty. -/
theorem mapOpt_flatten_nil {β γ : Type} (g : β → Option (List γ)) :
    ∀ l : List β, (∀ x ∈ l, g x = some []) →
      ∃ out, mapOpt g l = some out ∧ out.flatten = [] := by
  intro l
  induction l with
  | nil => exact fun _ => ⟨[], rfl, rfl⟩
  | cons x xs ih =>
    intro h
    obtain ⟨out, hout, hflat⟩ := ih (fun z hz => h z (List.mem_cons_of_mem x hz))
    refine ⟨[] :: out, ?_, by simp [hflat]⟩
    unfold mapOpt
    rw [h x (List.mem_cons_self x xs), hout]

/-- When every element maps to `some none`, reducing the collected options
yields the empty list. -/
theorem mapOpt_reduceOption_nil {β γ : Type} (g : β → Option (Option γ)) :
    ∀ l : List β, (∀ x ∈ l, g x = some none) →
      ∃ out, mapOpt g l = some out ∧ out.reduceOption = [] := by
  intro l
  induction l with
  | nil => exact fun _ => ⟨[], rfl, rfl⟩
  | cons x xs ih =>
    intro h
    obtain ⟨out, hout, hred⟩ := ih (fun z hz => h z (List.mem_cons_of_mem x hz))
    refine ⟨none :: out, ?_, hred⟩
    unfold mapOpt
    rw [h x (List.mem_cons_self x xs), hout]

/-- C4: on a zero-length cycle tick range `[t, t)` — with a positive phrase
length, the sequence started at or before `t`, every stored pattern event
closed with its stop inside the phrase and referring to an existing pattern —
`starting_notes` returns `some []` (the empty set: no panic, no division
fault), and `output_midi` retires nothing and emits nothing, leaving the
sounding notes untouched. -/
theorem c4_empty_cycle_starts_nothing :
    ∀ (patterns : List Pattern) (phrase : Phrase) (t sequence_start : Nat)
      (playing : List PlayingNoteEvent) (n_frames : Nat),
      0 < phrase.length →
      sequence_start ≤ t →
      (∀ pe ∈ phrase.pattern_events, ∃ s, pe.stop = some s ∧ s ≤ phrase.length) →
      (∀ pe ∈ phrase.pattern_events, pe.pattern < patterns.length) →
      starting_notes patterns phrase t t sequence_start = some [] ∧
        output_midi t t n_frames playing [] = some ([], playing) := by
  intro patterns phrase t s playing nf hlen hseq hevents hpat
  constructor
  · have hsegsome : ∀ pe ∈ phrase.pattern_events,
        ((if is_looping pe then
            pe.stop.map (fun s0 => [((0, s0), phrase.length - s0, pe),
              ((pe.start, phrase.length), 0, pe)])
          else
            pe.stop.map (fun s0 => [((pe.start, s0), (0 : Nat), pe)])) :
          Option (List ((Nat × Nat) × Nat × LoopablePatternEvent))).isSome := by
      intro pe hpe
      obtain ⟨s0, hs0, _⟩ := hevents pe hpe
      by_cases hloop : is_looping pe
      · rw [if_pos hloop, hs0]
        rfl
      · rw [if_neg hloop, hs0]
        rfl
    obtain ⟨segss, hsegss, hf2⟩ := mapOpt_some_of_forall _ phrase.pattern_events hsegsome
    have htrip : ∀ trip ∈ segss.flatten,
        trip.2.2 ∈ phrase.pattern_events ∧ trip.1.2 ≤ phrase.length := by
      intro trip htr
      obtain ⟨seglist, hsl, htrl⟩ := List.mem_flatten.mp htr
      obtain ⟨pe, hpe, hgpe⟩ := mapOpt_mem _ _ _ hsegss seglist hsl
      obtain ⟨s0, hs0, hs0le⟩ := hevents pe hpe
      by_cases hloop : is_looping pe
      · rw [if_pos hloop, hs0] at hgpe
        have hsl2 := Option.some_inj.mp hgpe
        rw [← hsl2] at htrl
        rcases (by simpa using htrl :
            trip = ((0, s0), phrase.length - s0, pe) ∨
              trip = ((pe.start, phrase.length), 0, pe)) with rfl | rfl
        · exact ⟨hpe, hs0le⟩
        · exact ⟨hpe, Nat.le_refl _⟩
      · rw [if_neg hloop, hs0] at hgpe
        have hsl2 := Option.some_inj.mp hgpe
        rw [← hsl2] at htrl
        have : trip = ((pe.start, s0), (0 : Nat), pe) := by simpa using htrl
        rw [this]
        exact ⟨hpe, hs0le⟩
    unfold starting_notes
    rw [if_neg (by omega), if_neg (by omega), if_neg (by omega)]
    simp only [hsegss]
    by_cases hpst : (t - s) % phrase.length = 0
    · rw [if_pos hpst]
      have hfilnil : segss.flatten.filter (fun trip =>
          decide (trip.1.1 < phrase.length) && decide (trip.1.2 > phrase.length)) = [] := by
        rw [List.filter_eq_nil_iff]
        intro trip htr
        have h2 := (htrip trip htr).2
        simp only [Bool.and_eq_true, decide_eq_true_eq, not_and]
        intro _
        omega
      simp only [hfilnil, mapOpt]
      rfl
    · rw [if_neg hpst]
      have hseg : ∀ trip ∈ segss.flatten.filter (fun trip =>
          decide (trip.1.1 < (t - s) % phrase.length) &&
            decide (trip.1.2 > (t - s) % phrase.length)),
          (match patterns[trip.2.2.pattern]? with
            | none => none
            | some pat =>
              (mapOpt (note_playing phrase.length ((t - s) % phrase.length)
                  ((t - s) % phrase.length) ((t - s) / phrase.length) s trip.1.1 trip.2.1 trip.2.2)
                (pat.note_events.filter (fun ne => ne.stop.isSome))).map List.reduceOption)
            = some ([] : List PlayingNoteEvent) := by
        intro trip htr
        have htr0 := List.mem_filter.mp htr
        have hpe := (htrip trip htr0.1).1
        have hidx := hpat trip.2.2 hpe
        simp only [List.getElem?_eq_getElem hidx]
        have hnotes : ∀ ne ∈ (patterns[trip.2.2.pattern].note_events.filter
            (fun ne => ne.stop.isSome)),
            note_playing phrase.length ((t - s) % phrase.length) ((t - s) % phrase.length)
              ((t - s) / phrase.length) s trip.1.1 trip.2.1 trip.2.2 ne = some none := by
          intro ne _
          unfold note_playing
          rw [if_neg (by omega)]
        obtain ⟨out, hout, hred⟩ := mapOpt_reduceOption_nil _ _ hnotes
        rw [hout, Option.map_some', hred]
      have hout2 := mapOpt_flatten_nil _ _ hseg
      obtain ⟨out2, hout2, hflat2⟩ := hout2
      simp only [hout2]
      rw [hflat2]
  · unfold output_midi
    have hfil : playing.filter (fun n => decide (t ≤ n.stop) && decide (n.stop < t)) = [] := by
      rw [List.filter_eq_nil_iff]
      intro n _
      simp only [Bool.and_eq_true, decide_eq_true_eq, not_and]
      intro _
      omega
    have hfil2 : playing.filter (fun n => ! (decide (t ≤ n.stop) && decide (n.stop < t)))
        = playing := by
      rw [List.filter_eq_self]
      intro n _
      simp only [Bool.not_eq_true', Bool.and_eq_false_iff, decide_eq_false_iff_not]
      omega
    simp only [hfil, hfil2, mapOpt, List.append_nil, List.nil_append, sort_by_frame]

/-- C4 witness: a concrete empty cycle `[1234, 1234)` over a 1000-tick phrase
holding one closed pattern event, with one sounding note. -/
theorem c4_witness :
    starting_notes [wrap_pattern] quiet_phrase 1234 1234 34 = some [] ∧
      output_midi 1234 1234 64 [sounding_note] [] = some ([], [sounding_note]) :=
  c4_empty_cycle_starts_nothing [wrap_pattern] quiet_phrase 1234 34 [sounding_note] 64
    (by norm_num [quiet_phrase])
    (by norm_num)
    (by
      intro pe hpe
      have hpe2 : pe = { start := 900, stop := some 950, pattern := 0 } := by
        simpa [quiet_phrase] using hpe
      subst hpe2
      exact ⟨950, rfl, by norm_num [quiet_phrase]⟩)
    (by
      intro pe hpe
      have hpe2 : pe = { start := 900, stop := some 950, pattern := 0 } := by
        simpa [quiet_phrase] using hpe
      subst hpe2
      norm_num)

/-! ## Claim C1 -/

section InsertCompleteInvariant

variable {α : Type} [LoopableEvent α] [LawfulLoopableEvent α]

open LoopableEvent LawfulLoopableEvent

/-- `within` is reflexive. -/
theorem within_refl (o : α) : within o o :=
  ⟨rfl, fun sp hsp => ⟨sp, hsp, Nat.le_refl _, Nat.le_refl _⟩⟩

/-- Pieces of disjoint events are disjoint. -/
theorem within_disj {a b o o' : α} (ha : within a o) (hb : within b o')
    (hd : disjoint_events o o') : disjoint_events a b := by
  intro sa sb hsa hsb
  obtain ⟨so, hso, hao, hsao⟩ := ha.2 sa hsa
  obtain ⟨so', hso', hbo, hsbo⟩ := hb.2 sb hsb
  rcases hd so so' hso hso' with h | h
  · exact Or.inl (by omega)
  · exact Or.inr (by omega)

/-- Everything `resize_to_fit` produces for a well-formed pair: both pieces
stay on the original event's row inside its range, stay well formed, avoid
the new event's range (the surviving piece provided the original was not
fully contained), and avoid each other. -/
theorem resize_spec (o e : α) (len : Nat) (ho : wellFormed o) (he : wellFormed e) :
    within (resize_to_fit o e len).1 o ∧ wellFormed (resize_to_fit o e len).1 ∧
    (contains e o len = false → disjoint_events (resize_to_fit o e len).1 e) ∧
    ∀ p, (resize_to_fit o e len).2 = some p →
      within p o ∧ wellFormed p ∧ disjoint_events p e ∧
        disjoint_events (resize_to_fit o e len).1 p := by
  cases hso : LoopableEvent.stop o with
  | none =>
    have hr : resize_to_fit o e len = (o, none) := by
      unfold resize_to_fit
      rw [hso]
    rw [hr]
    refine ⟨within_refl o, ho, fun _ sa sb hsa _ => ?_, fun p hp => by cases hp⟩
    rw [hso] at hsa
    cases hsa
  | some os =>
    cases hse : LoopableEvent.stop e with
    | none =>
      have hr : resize_to_fit o e len = (o, none) := by
        unfold resize_to_fit
        rw [hso, hse]
      rw [hr]
      refine ⟨within_refl o, ho, fun _ sa sb _ hsb => ?_, fun p hp => by cases hp⟩
      rw [hse] at hsb
      cases hsb
    | some es =>
      have ho' : LoopableEvent.start o < os := by
        unfold wellFormed at ho
        rw [hso] at ho
        exact ho
      have he' : LoopableEvent.start e < es := by
        unfold wellFormed at he
        rw [hse] at he
        exact he
      have hlo : is_looping o = false := by
        unfold is_looping
        rw [hso]
        simp
        omega
      have hle : is_looping e = false := by
        unfold is_looping
        rw [hse]
        simp
        omega
      have hnl : ¬((is_looping o : Prop) ∨ (is_looping e : Prop)) := by
        simp [hlo, hle]
      by_cases c1 : LoopableEvent.start o < LoopableEvent.start e ∧
          LoopableEvent.start e < os ∧ es < os
      · have hr : resize_to_fit o e len
            = (set_stop o (LoopableEvent.start e), some (set_start o es)) := by
          unfold resize_to_fit
          simp only [hso, hse]
          rw [if_neg hnl, if_pos c1]
        rw [hr]
        refine ⟨⟨row_set_stop o _, fun sp hsp => ?_⟩, ?_, fun _ sa sb hsa hsb => ?_,
          fun p hp => ?_⟩
        · rw [stop_set_stop] at hsp
          exact ⟨os, hso, by rw [start_set_stop], by
            have := Option.some_inj.mp hsp
            omega⟩
        · unfold wellFormed
          rw [stop_set_stop, start_set_stop]
          omega
        · rw [stop_set_stop] at hsa
          have hsa2 := Option.some_inj.mp hsa
          exact Or.inl (by omega)
        · obtain rfl : set_start o es = p := Option.some_inj.mp hp
          refine ⟨⟨row_set_start o _, fun sp hsp => ?_⟩, ?_, fun sa sb hsa hsb => ?_,
            fun sa sb hsa hsb => ?_⟩
          · rw [stop_set_start, hso] at hsp
            exact ⟨os, hso, by rw [start_set_start]; omega, by
              have := Option.some_inj.mp hsp
              omega⟩
          · unfold wellFormed
            rw [stop_set_start, hso, start_set_start]
            omega
          · rw [hse] at hsb
            have := Option.some_inj.mp hsb
            exact Or.inr (by rw [start_set_start]; omega)
          · rw [stop_set_stop] at hsa
            have := Option.some_inj.mp hsa
            exact Or.inl (by rw [start_set_start]; omega)
      · by_cases c2 : LoopableEvent.start o < LoopableEvent.start e ∧
            LoopableEvent.start e < os
        · have hr : resize_to_fit o e len = (set_stop o (LoopableEvent.start e), none) := by
            unfold resize_to_fit
            simp only [hso, hse]
            rw [if_neg hnl, if_neg c1, if_pos c2]
          rw [hr]
          refine ⟨⟨row_set_stop o _, fun sp hsp => ?_⟩, ?_, fun _ sa sb hsa hsb => ?_,
            fun p hp => by cases hp⟩
          · rw [stop_set_stop] at hsp
            exact ⟨os, hso, by rw [start_set_stop], by
              have := Option.some_inj.mp hsp
              omega⟩
          · unfold wellFormed
            rw [stop_set_stop, start_set_stop]
            omega
          · rw [stop_set_stop] at hsa
            have := Option.some_inj.mp hsa
            exact Or.inl (by omega)
        · by_cases c3 : LoopableEvent.start e ≤ LoopableEvent.start o ∧
              LoopableEvent.start o < es ∧ es < os
          · have hr : resize_to_fit o e len = (set_start o es, none) := by
              unfold resize_to_fit
              simp only [hso, hse]
              rw [if_neg hnl, if_neg c1, if_neg c2, if_pos c3]
            rw [hr]
            refine ⟨⟨row_set_start o _, fun sp hsp => ?_⟩, ?_, fun _ sa sb hsa hsb => ?_,
              fun p hp => by cases hp⟩
            · rw [stop_set_start, hso] at hsp
              exact ⟨os, hso, by rw [start_set_start]; omega, by
                have := Option.some_inj.mp hsp
                omega⟩
            · unfold wellFormed
              rw [stop_set_start, hso, start_set_start]
              omega
            · rw [hse] at hsb
              have := Option.some_inj.mp hsb
              exact Or.inr (by rw [start_set_start]; omega)
          · have hr : resize_to_fit o e len = (o, none) := by
              unfold resize_to_fit
              simp only [hso, hse]
              rw [if_neg hnl, if_neg c1, if_neg c2, if_neg c3]
            rw [hr]
            refine ⟨within_refl o, ho, fun hnc sa sb hsa hsb => ?_, fun p hp => by cases hp⟩
            have hnc2 : ¬(LoopableEvent.start e ≤ LoopableEvent.start o ∧ os ≤ es) := by
              intro hcon
              have : contains e o len = true := by
                unfold contains
                simp only [hse, hso, hlo, hle]
                simp
                omega
              rw [this] at hnc
              cases hnc
            rw [hso] at hsa
            rw [hse] at hsb
            have h1 := Option.some_inj.mp hsa
            have h2 := Option.some_inj.mp hsb
            subst h1
            subst h2
            dsimp only
            omega

end InsertCompleteInvariant

/-- The surviving pieces followed by the split-off pieces are a permutation of
the per-event groups (each event's surviving piece next to its split
piece). -/
theorem map_filterMap_perm {β γ : Type} (f : β → γ) (g : β → Option γ) :
    ∀ l : List β, (l.map f ++ l.filterMap g).Perm (l.flatMap (fun o => f o :: (g o).toList)) := by
  intro l
  induction l with
  | nil => exact List.Perm.refl _
  | cons x xs ih =>
    rw [List.map_cons, List.filterMap_cons, List.flatMap_cons]
    cases hgx : g x with
    | none =>
      rw [show (Option.toList (none : Option γ)) = [] from rfl]
      exact List.Perm.cons (f x) ih
    | some y =>
      rw [show (Option.toList (some y)) = [y] from rfl]
      refine List.Perm.cons (f x) ?_
      exact List.Perm.trans List.perm_middle (ih.cons y)

section InsertCompleteAssembly

variable {α : Type} [LoopableEvent α] [LawfulLoopableEvent α]

open LoopableEvent

/-- What the per-event update of `add_complete_event` — truncation for
same-row survivors, identity otherwise — guarantees about both output
pieces. -/
theorem step_spec (o e : α) (len : Nat) (ho : wellFormed o) (he : wellFormed e) :
    within (if is_on_same_row o e then resize_to_fit o e len else (o, none)).1 o ∧
    wellFormed (if is_on_same_row o e then resize_to_fit o e len else (o, none)).1 ∧
    ((is_on_same_row e o = false ∨ contains e o len = false) →
      LoopableEvent.row (if is_on_same_row o e then resize_to_fit o e len else (o, none)).1
          = LoopableEvent.row e →
        disjoint_events (if is_on_same_row o e then resize_to_fit o e len else (o, none)).1 e) ∧
    ∀ p, (if is_on_same_row o e then resize_to_fit o e len else (o, none)).2 = some p →
      within p o ∧ wellFormed p ∧
        (LoopableEvent.row p = LoopableEvent.row e → disjoint_events p e) ∧
        disjoint_events (if is_on_same_row o e then resize_to_fit o e len else (o, none)).1 p := by
  by_cases hsr : is_on_same_row o e
  · rw [if_pos hsr]
    obtain ⟨h1, h2, h3, h4⟩ := resize_spec o e len ho he
    refine ⟨h1, h2, ?_, fun p hp => ?_⟩
    · intro hd _
      rcases hd with hfalse | hcf
      · exfalso
        have hrow : LoopableEvent.row o = LoopableEvent.row e := by
          simpa [is_on_same_row] using hsr
        rw [is_on_same_row] at hfalse
        simp [hrow] at hfalse
      · exact h3 hcf
    · obtain ⟨p1, p2, p3, p4⟩ := h4 p hp
      exact ⟨p1, p2, fun _ => p3, p4⟩
  · rw [if_neg hsr]
    have hrow : LoopableEvent.row o ≠ LoopableEvent.row e := by
      simpa [is_on_same_row] using hsr
    refine ⟨within_refl o, ho, ?_, fun p hp => by cases hp⟩
    intro _ hre
    exact absurd hre hrow

/-- One `add_complete_event` call preserves the timeline invariant: afterwards
every stored event is still well formed and no two same-row events
overlap. -/
theorem add_complete_preserves (l : List α) (e : α) (len : Nat)
    (hok : timeline_ok l) (he : wellFormed e) :
    timeline_ok (add_complete_event l e len) := by
  obtain ⟨hwf, hpw⟩ := hok
  have hdef : add_complete_event l e len
      = ((l.filter (fun o => ! is_on_same_row e o || ! contains e o len)).map
          (fun o => (if is_on_same_row o e then resize_to_fit o e len else (o, none)).1))
        ++ (((l.filter (fun o => ! is_on_same_row e o || ! contains e o len)).filterMap
          (fun o => (if is_on_same_row o e then resize_to_fit o e len else (o, none)).2))
        ++ [e]) := by
    rw [← List.append_assoc]
    rfl
  rw [hdef]
  have hkwf : ∀ o ∈ l.filter (fun o => ! is_on_same_row e o || ! contains e o len),
      wellFormed o := fun o ho => hwf o (List.mem_of_mem_filter ho)
  have hknc : ∀ o ∈ l.filter (fun o => ! is_on_same_row e o || ! contains e o len),
      is_on_same_row e o = false ∨ contains e o len = false := by
    intro o ho
    have hcond := (List.mem_filter.mp ho).2
    simp only [Bool.or_eq_true, Bool.not_eq_true'] at hcond
    exact hcond
  have hkpw : row_disjoint (l.filter (fun o => ! is_on_same_row e o || ! contains e o len)) :=
    List.Pairwise.sublist (List.filter_sublist l) hpw
  have hwithin : ∀ o, wellFormed o →
      ∀ x ∈ ((if is_on_same_row o e then resize_to_fit o e len else (o, none)).1 ::
        ((if is_on_same_row o e then resize_to_fit o e len else (o, none)).2).toList),
      within x o := by
    intro o hwfo x hx
    rcases List.mem_cons.mp hx with rfl | hx2
    · exact (step_spec o e len hwfo he).1
    · have hsome := Option.mem_toList.mp hx2
      exact ((step_spec o e len hwfo he).2.2.2 x hsome).1
  constructor
  · intro x hx
    rcases List.mem_append.mp hx with hmap | hrest
    · obtain ⟨o, ho, rfl⟩ := List.mem_map.mp hmap
      exact (step_spec o e len (hkwf o ho) he).2.1
    · rcases List.mem_append.mp hrest with hfm | hxe
      · obtain ⟨o, ho, hsome⟩ := List.mem_filterMap.mp hfm
        exact ((step_spec o e len (hkwf o ho) he).2.2.2 x hsome).2.1
      · have hxe2 : x = e := by simpa using hxe
        rw [hxe2]
        exact he
  · unfold row_disjoint
    have hsymm : ∀ {x y : α},
        (LoopableEvent.row x = LoopableEvent.row y → disjoint_events x y) →
        (LoopableEvent.row y = LoopableEvent.row x → disjoint_events y x) := by
      intro x y h hr
      intro sa sb hsa hsb
      rcases h hr.symm sb sa hsb hsa with hh | hh
      · exact Or.inr hh
      · exact Or.inl hh
    have hperm : ((l.filter (fun o => ! is_on_same_row e o || ! contains e o len)).map
          (fun o => (if is_on_same_row o e then resize_to_fit o e len else (o, none)).1)
        ++ (((l.filter (fun o => ! is_on_same_row e o || ! contains e o len)).filterMap
          (fun o => (if is_on_same_row o e then resize_to_fit o e len else (o, none)).2))
        ++ [e])).Perm
        (((l.filter (fun o => ! is_on_same_row e o || ! contains e o len)).flatMap
          (fun o => (if is_on_same_row o e then resize_to_fit o e len else (o, none)).1 ::
            ((if is_on_same_row o e then resize_to_fit o e len else (o, none)).2).toList))
          ++ [e]) := by
      rw [← List.append_assoc]
      exact (map_filterMap_perm _ _ _).append_right [e]
    refine (hperm.pairwise_iff hsymm).mpr ?_
    rw [List.pairwise_append]
    refine ⟨?_, List.pairwise_singleton _ _, ?_⟩
    · rw [List.flatMap_def, List.pairwise_flatten]
      constructor
      · intro g hg
        obtain ⟨o, ho, rfl⟩ := List.mem_map.mp hg
        cases hsnd : (if is_on_same_row o e then resize_to_fit o e len else (o, none)).2 with
        | none =>
          exact List.pairwise_singleton _ _
        | some p =>
          rw [show (Option.toList (some p)) = [p] from rfl]
          rw [List.pairwise_cons]
          refine ⟨?_, List.pairwise_singleton _ _⟩
          intro p' hp'
          have hp2 : p' = p := by simpa using hp'
          subst hp2
          intro _
          exact ((step_spec o e len (hkwf o ho) he).2.2.2 p' hsnd).2.2.2
      · rw [List.pairwise_map]
        refine List.Pairwise.imp_of_mem ?_ hkpw
        intro o o' ho ho' hQ x hx y hy hrow
        have hxw := hwithin o (hkwf o ho) x hx
        have hyw := hwithin o' (hkwf o' ho') y hy
        have hoo : LoopableEvent.row o = LoopableEvent.row o' := by
          rw [← hxw.1, ← hyw.1]
          exact hrow
        exact within_disj hxw hyw (hQ hoo)
    · intro x hx y hy
      have hye : y = e := by simpa using hy
      rw [hye]
      obtain ⟨o, ho, hxo⟩ := List.mem_flatMap.mp hx
      rcases List.mem_cons.mp hxo with rfl | hx2
      · intro hrow
        exact (step_spec o e len (hkwf o ho) he).2.2.1 (hknc o ho) hrow
      · have hsome := Option.mem_toList.mp hx2
        intro hrow
        exact ((step_spec o e len (hkwf o ho) he).2.2.2 x hsome).2.2.1 hrow

end InsertCompleteAssembly

/-- An event inserted with `start < stop` is well formed. -/
theorem start_lt_stop_wellFormed {α : Type} [LoopableEvent α] (e : α)
    (h : start_lt_stop e) : wellFormed e := by
  unfold start_lt_stop at h
  unfold wellFormed
  cases hstop : LoopableEvent.stop e with
  | none =>
    rw [hstop] at h
    exact h.elim
  | some s =>
    rw [hstop] at h
    exact h

/-- A whole sequence of `insert_complete` calls — each call using the
timeline's own length of that moment — preserves the invariant. -/
theorem fold_add_complete_ok {α : Type} [LoopableEvent α] [LawfulLoopableEvent α]
    (lenF : List α → Nat) :
    ∀ (inserts : List α) (init : List α), timeline_ok init →
      (∀ e ∈ inserts, start_lt_stop e) →
      timeline_ok (inserts.foldl (fun tl e => add_complete_event tl e (lenF tl)) init) := by
  intro inserts
  induction inserts with
  | nil =>
    intro init h _
    exact h
  | cons e es ih =>
    intro init hinit hins
    rw [List.foldl_cons]
    refine ih _ ?_ (fun x hx => hins x (List.mem_cons_of_mem e hx))
    exact add_complete_preserves init e (lenF init) hinit
      (start_lt_stop_wellFormed e (hins e (List.mem_cons_self e es)))

/-- C1: starting from any timeline satisfying the invariant (the empty one in
particular) and applying any sequence of `insert_complete` calls whose events
all have `start < stop`, no two stored events on any one row have
intersecting tick ranges.  Quantifying over every insert sequence covers the
state after each call; `lenF` supplies the container length the source reads
via `self.length()` at each call. -/
theorem c1_insert_complete_non_overlap :
    ∀ {α : Type} [inst : LoopableEvent α] [lawful : LawfulLoopableEvent α]
      (lenF : List α → Nat) (init : List α) (inserts : List α),
      timeline_ok init →
      (∀ e ∈ inserts, start_lt_stop e) →
      ∀ r, ((inserts.foldl (fun tl e => add_complete_event tl e (lenF tl)) init).filter
          (fun x => is_on_row x r)).Pairwise disjoint_events := by
  intro α inst lawful lenF init inserts hinit hins r
  have hfold := fold_add_complete_ok lenF inserts init hinit hins
  have hsub := List.Pairwise.sublist
    (@List.filter_sublist α (fun x => is_on_row x r)
      (inserts.foldl (fun tl e => add_complete_event tl e (lenF tl)) init)) hfold.2
  refine List.Pairwise.imp_of_mem ?_ hsub
  intro a b ha hb hQ
  have hra : LoopableEvent.row a = r := by
    have := (List.mem_filter.mp ha).2
    simpa [is_on_row] using this
  have hrb : LoopableEvent.row b = r := by
    have := (List.mem_filter.mp hb).2
    simpa [is_on_row] using this
  exact hQ (hra.trans hrb.symm)

/-- C1 witness: the spec's split scenario — insert `[0,100)` then `[40,60)` on
row 0 of an empty timeline — leaves row 0 free of overlaps. -/
theorem c1_witness :
    (( [split_base_event, split_new_event].foldl
        (fun tl e => add_complete_event tl e 7680) []).filter
        (fun x => is_on_row x 0)).Pairwise disjoint_events :=
  c1_insert_complete_non_overlap (fun _ => 7680) [] [split_base_event, split_new_event]
    ⟨fun e he => absurd he (List.not_mem_nil e), List.Pairwise.nil⟩
    (by decide) 0
